import Mathlib

/-!
Verification of the JSON-LD context-resolution core of the CMIPLD repository.

The embedding models the JavaScript viewer modules
(src/static/viewer/viewer.js, src/static/viewer/modules/document-loader.js,
src/static/viewer/modules/jsonld-processor.js) and the Python JSON
validator (JSONValidator.sort_json_keys).  JSON values are a Lean inductive
type; JavaScript objects are ordered key/value lists (JavaScript objects
preserve insertion order); network fetches are an explicit environment
of type String -> Option Json where none models a thrown fetch error; the
JavaScript call stack is explicit fuel where the source recursion is not
structurally bounded.
-/

namespace CMIPLD

/-- JSON values.  Objects are ordered association lists of key/value pairs,
mirroring JavaScript object insertion order. -/
inductive Json where
  | null : Json
  | bool (b : Bool) : Json
  | num (n : Int) : Json
  | str (s : String) : Json
  | arr (items : List Json) : Json
  | obj (entries : List (String × Json)) : Json

/-- Property lookup on a JavaScript object: o[k], with none for undefined. -/
def objGet (l : List (String × Json)) (k : String) : Option Json :=
  match l with
  | [] => none
  | (k0, v) :: rest => if k0 = k then some v else objGet rest k

/-- Property assignment on a JavaScript object: o[k] = v replaces the value
in place when the key is present (keeping its position) and appends the new
property otherwise. -/
def objSet (l : List (String × Json)) (k : String) (v : Json) :
    List (String × Json) :=
  match l with
  | [] => [(k, v)]
  | (k0, v0) :: rest =>
      if k0 = k then (k, v) :: rest else (k0, v0) :: objSet rest k v

/-- JavaScript Object.assign(target, source): copies every own property of
source onto target in order, overwriting existing values. -/
def objAssign (target source : List (String × Json)) : List (String × Json) :=
  match source with
  | [] => target
  | (k, v) :: rest => objAssign (objSet target k v) rest

/-- The value held by the last occurrence of a key (Object.assign writes
properties in order, so a later duplicate wins). -/
def lastGet (l : List (String × Json)) (k : String) : Option Json :=
  objGet l.reverse k

/-- Key list of an object. -/
def objKeys (l : List (String × Json)) : List String := l.map Prod.fst

/-- Objects as produced by JSON.parse carry each key at most once. -/
def NodupKeys (l : List (String × Json)) : Prop := (objKeys l).Nodup

instance (l : List (String × Json)) : Decidable (NodupKeys l) := by
  unfold NodupKeys; infer_instance

/-- JavaScript truthiness of a JSON value. -/
def jsTruthy : Json → Bool
  | Json.null => false
  | Json.bool b => b
  | Json.num n => n != 0
  | Json.str s => s != ""
  | Json.arr _ => true
  | Json.obj _ => true

/-- o[k] when it is truthy (the pattern if (o[k]) of the source). -/
def objGetTruthy (l : List (String × Json)) (k : String) : Option Json :=
  match objGet l k with
  | some v => if jsTruthy v then some v else none
  | none => none

theorem objGet_objSet (l : List (String × Json)) (k k' : String) (v : Json) :
    objGet (objSet l k v) k' = if k = k' then some v else objGet l k' := by
  induction l with
  | nil => simp [objSet, objGet]
  | cons p rest ih =>
      obtain ⟨k0, v0⟩ := p
      by_cases h0 : k0 = k
      · subst h0
        by_cases h : k0 = k' <;> simp [objSet, objGet, h]
      · simp only [objSet, if_neg h0, objGet]
        by_cases h : k0 = k'
        · subst h
          have hne : ¬ k = k0 := fun hc => h0 hc.symm
          simp [hne]
        · simp [h, ih]

theorem objGet_append (l1 l2 : List (String × Json)) (k : String) :
    objGet (l1 ++ l2) k = (objGet l1 k).orElse (fun _ => objGet l2 k) := by
  induction l1 with
  | nil => simp [objGet]
  | cons p rest ih =>
      obtain ⟨k0, v0⟩ := p
      by_cases h : k0 = k <;> simp [objGet, h, ih]

theorem objGet_objAssign (t s : List (String × Json)) (k : String) :
    objGet (objAssign t s) k =
      (lastGet s k).orElse (fun _ => objGet t k) := by
  induction s generalizing t with
  | nil => simp [objAssign, lastGet, objGet]
  | cons p rest ih =>
      obtain ⟨k0, v0⟩ := p
      simp only [objAssign, ih, lastGet, List.reverse_cons, objGet_append]
      cases hrest : objGet rest.reverse k with
      | some v => rfl
      | none =>
          show objGet (objSet t k0 v0) k =
            (objGet [(k0, v0)] k).orElse fun _ => objGet t k
          rw [objGet_objSet]
          by_cases h : k0 = k <;> simp [objGet, h]

theorem objGet_eq_none_of_not_mem (l : List (String × Json)) (k : String)
    (h : k ∉ objKeys l) : objGet l k = none := by
  induction l with
  | nil => rfl
  | cons p rest ih =>
      obtain ⟨k0, v0⟩ := p
      simp only [objKeys, List.map_cons, List.mem_cons] at h
      push_neg at h
      have h0 : ¬ k0 = k := fun hc => h.1 hc.symm
      simpa [objGet, h0] using ih (by simpa [objKeys] using h.2)

theorem lastGet_eq_objGet (l : List (String × Json)) (k : String)
    (h : NodupKeys l) : lastGet l k = objGet l k := by
  induction l with
  | nil => rfl
  | cons p rest ih =>
      obtain ⟨k0, v0⟩ := p
      have hsplit : k0 ∉ objKeys rest ∧ NodupKeys rest := by
        have := h
        simp only [NodupKeys, objKeys, List.map_cons, List.nodup_cons] at this
        exact this
      simp only [lastGet, List.reverse_cons, objGet_append]
      by_cases hk : k0 = k
      · subst hk
        have hnone : objGet rest.reverse k0 = none := by
          apply objGet_eq_none_of_not_mem
          simpa [objKeys, List.map_reverse] using hsplit.1
        simp [hnone, objGet]
      · have hrec := ih hsplit.2
        simp only [lastGet] at hrec
        simp [objGet, hk, hrec]

theorem mem_objKeys_objSet (l : List (String × Json)) (k x : String) (v : Json) :
    x ∈ objKeys (objSet l k v) ↔ x ∈ objKeys l ∨ x = k := by
  induction l with
  | nil => simp [objSet, objKeys]
  | cons p rest ih =>
      obtain ⟨k0, v0⟩ := p
      by_cases hk : k0 = k
      · subst hk
        have h1 : objSet ((k0, v0) :: rest) k0 v = (k0, v) :: rest := by
          simp [objSet]
        rw [h1]
        rw [show objKeys ((k0, v) :: rest) = k0 :: objKeys rest from rfl,
          show objKeys ((k0, v0) :: rest) = k0 :: objKeys rest from rfl]
        simp only [List.mem_cons]
        tauto
      · have h1 : objSet ((k0, v0) :: rest) k v = (k0, v0) :: objSet rest k v := by
          simp [objSet, hk]
        rw [h1]
        rw [show objKeys ((k0, v0) :: objSet rest k v) =
            k0 :: objKeys (objSet rest k v) from rfl,
          show objKeys ((k0, v0) :: rest) = k0 :: objKeys rest from rfl]
        simp only [List.mem_cons, ih]
        tauto

theorem nodupKeys_objSet (l : List (String × Json)) (k : String) (v : Json)
    (h : NodupKeys l) : NodupKeys (objSet l k v) := by
  induction l with
  | nil => simp [objSet, NodupKeys, objKeys]
  | cons p rest ih =>
      obtain ⟨k0, v0⟩ := p
      have hsplit : k0 ∉ objKeys rest ∧ NodupKeys rest := by
        have := h
        simp only [NodupKeys, objKeys, List.map_cons, List.nodup_cons] at this
        exact this
      by_cases hk : k0 = k
      · subst hk
        simpa [objSet, NodupKeys, objKeys, List.nodup_cons] using hsplit
      · have hrec := ih hsplit.2
        simp only [objSet, if_neg hk, NodupKeys, objKeys, List.map_cons,
          List.nodup_cons]
        refine ⟨?_, hrec⟩
        intro hmem
        rw [show (objSet rest k v).map Prod.fst = objKeys (objSet rest k v)
          from rfl] at hmem
        rcases (mem_objKeys_objSet rest k k0 v).mp hmem with h1 | h1
        · exact hsplit.1 h1
        · exact hk h1

theorem nodupKeys_objAssign (t s : List (String × Json)) (h : NodupKeys t) :
    NodupKeys (objAssign t s) := by
  induction s generalizing t with
  | nil => exact h
  | cons p rest ih =>
      obtain ⟨k0, v0⟩ := p
      exact ih _ (nodupKeys_objSet t k0 v0 h)

theorem objGet_objAssign_nil (s : List (String × Json)) (k : String) :
    objGet (objAssign [] s) k = lastGet s k := by
  rw [objGet_objAssign]
  cases lastGet s k <;> simp [objGet]

mutual

/-- Merging of context definitions, document-loader.js mergeContext: the
source special-cases @base (seeding it from the source when the target has no
truthy @base) and then runs Object.assign over every source property, @base
included; array sources are merged element by element; any other source is
ignored. -/
def mergeContext (target : List (String × Json)) : Json → List (String × Json)
  | Json.obj entries =>
      let seeded :=
        match objGetTruthy entries "@base", objGetTruthy target "@base" with
        | some b, none => objSet target "@base" b
        | _, _ => target
      objAssign seeded entries
  | Json.arr cs => mergeContextList target cs
  | _ => target

/-- The forEach loop of mergeContext over an array source. -/
def mergeContextList (target : List (String × Json)) :
    List Json → List (String × Json)
  | [] => target
  | c :: rest => mergeContextList (mergeContext target c) rest

end

/-- Lookup through mergeContext with an object source is last-write-wins for
every key, the special-cased @base included: the source value wins whenever
the source defines the key. -/
theorem objGet_mergeContext_obj (target entries : List (String × Json))
    (t : String) (h : NodupKeys entries) :
    objGet (mergeContext target (Json.obj entries)) t =
      (objGet entries t).orElse (fun _ => objGet target t) := by
  cases hsb : objGetTruthy entries "@base" with
  | none =>
      have hm : mergeContext target (Json.obj entries) = objAssign target entries := by
        simp [mergeContext, hsb]
      rw [hm, objGet_objAssign, lastGet_eq_objGet entries t h]
  | some b =>
      cases htb : objGetTruthy target "@base" with
      | some b2 =>
          have hm : mergeContext target (Json.obj entries) =
              objAssign target entries := by
            simp [mergeContext, hsb, htb]
          rw [hm, objGet_objAssign, lastGet_eq_objGet entries t h]
      | none =>
          have hm : mergeContext target (Json.obj entries) =
              objAssign (objSet target "@base" b) entries := by
            simp [mergeContext, hsb, htb]
          rw [hm, objGet_objAssign, lastGet_eq_objGet entries t h]
          cases hson : objGet entries t with
          | some v => rfl
          | none =>
              show objGet (objSet target "@base" b) t = objGet target t
              rw [objGet_objSet]
              have hne : ¬ "@base" = t := by
                intro hc
                subst hc
                simp only [objGetTruthy, hson] at hsb
                exact Option.noConfusion hsb
              simp [hne]

/-- The for-loop of viewer.js resolveContext over a context array: each
element is resolved by f and the result Object.assigned onto the accumulator. -/
def resolveList (f : Json → Option (List (String × Json))) :
    List Json → List (String × Json) → Option (List (String × Json))
  | [], acc => some acc
  | c :: rest, acc =>
      match f c with
      | some r => resolveList f rest (objAssign acc r)
      | none => none

/-- viewer.js resolveContext: a string context is fetched and the fetched
document's truthy @context resolved recursively (a thrown fetch error is
caught and yields the empty result); an array is resolved element-wise with
Object.assign merging onto an empty result; an inline object is
Object.assigned onto the empty result as-is; anything else yields the empty
result.  The fuel argument stands for the JavaScript call stack (this
function has no cycle detection in the source): none models recursion that
never bottoms out. -/
def resolveContextF (env : String → Option Json) :
    Nat → Json → Option (List (String × Json))
  | 0, _ => none
  | fuel + 1, ctx =>
      match ctx with
      | Json.str u =>
          match env u with
          | some doc =>
              match doc with
              | Json.obj dentries =>
                  match objGetTruthy dentries "@context" with
                  | some sub => resolveContextF env fuel sub
                  | none => some []
              | _ => some []
          | none => some []
      | Json.arr cs => resolveList (fun c => resolveContextF env fuel c) cs []
      | Json.obj entries => some (objAssign [] entries)
      | _ => some []

/-- One step of the specification-side merge: a later context that defines
the term overwrites the accumulated definition. -/
def ldStep (t : String) (acc : Option Json) (c : List (String × Json)) :
    Option Json :=
  match objGet c t with
  | some v => some v
  | none => acc

/-- The definition a term receives from a sequence of sibling contexts when
the highest-index context defining the term wins: this is the
last-write-wins reading of the specification for context arrays. -/
def lastDefined (cs : List (List (String × Json))) (t : String) : Option Json :=
  cs.foldl (ldStep t) none

/-- One step of the merge that resolveContext performs on an array element
that is an inline object. -/
def raStep (acc c : List (String × Json)) : List (String × Json) :=
  objAssign acc (objAssign [] c)

/-- The flattened object resolveContext computes for an array of inline
object contexts. -/
def resolvedArr (cs : List (List (String × Json))) : List (String × Json) :=
  cs.foldl raStep []

theorem foldl_ldStep (t : String) (cs : List (List (String × Json)))
    (a : Option Json) :
    cs.foldl (ldStep t) a = (lastDefined cs t).orElse (fun _ => a) := by
  induction cs generalizing a with
  | nil => rfl
  | cons c rest ih =>
      have hR : lastDefined (c :: rest) t =
          (lastDefined rest t).orElse (fun _ => ldStep t none c) := by
        show List.foldl (ldStep t) none (c :: rest) = _
        rw [List.foldl_cons, ih]
      rw [List.foldl_cons, ih, hR]
      cases hld : lastDefined rest t with
      | some v => rfl
      | none =>
          show ldStep t a c = (ldStep t none c).orElse fun _ => a
          cases hc : objGet c t <;> simp [ldStep, hc]

theorem lastDefined_cons (t : String) (c : List (String × Json))
    (rest : List (List (String × Json))) :
    lastDefined (c :: rest) t =
      (lastDefined rest t).orElse (fun _ => ldStep t none c) := by
  show List.foldl (ldStep t) none (c :: rest) = _
  rw [List.foldl_cons, foldl_ldStep]

theorem objGet_raStep (acc c : List (String × Json)) (t : String)
    (hc : NodupKeys c) :
    objGet (raStep acc c) t = (objGet c t).orElse (fun _ => objGet acc t) := by
  show objGet (objAssign acc (objAssign [] c)) t = _
  rw [objGet_objAssign,
    lastGet_eq_objGet _ _ (nodupKeys_objAssign [] c (by simp [NodupKeys, objKeys])),
    objGet_objAssign_nil, lastGet_eq_objGet c t hc]

theorem objGet_foldl_raStep (t : String) (cs : List (List (String × Json)))
    (acc : List (String × Json)) (h : ∀ c ∈ cs, NodupKeys c) :
    objGet (cs.foldl raStep acc) t =
      (lastDefined cs t).orElse (fun _ => objGet acc t) := by
  induction cs generalizing acc with
  | nil => rfl
  | cons c rest ih =>
      rw [List.foldl_cons, ih _ (fun c hc => h c (List.mem_cons_of_mem _ hc)),
        objGet_raStep acc c t (h c (List.mem_cons_self _ _)), lastDefined_cons]
      cases hld : lastDefined rest t with
      | some v => rfl
      | none =>
          show (objGet c t).orElse _ = (ldStep t none c).orElse fun _ => objGet acc t
          cases hc : objGet c t <;> simp [ldStep, hc]

theorem resolveList_objs (env : String → Option Json) (fuel : Nat)
    (cs : List (List (String × Json))) (acc : List (String × Json)) :
    resolveList (fun c => resolveContextF env (fuel + 1) c) (cs.map Json.obj) acc =
      some (cs.foldl raStep acc) := by
  induction cs generalizing acc with
  | nil => rfl
  | cons c rest ih =>
      show resolveList _ (Json.obj c :: rest.map Json.obj) acc = _
      simp only [resolveList, resolveContextF]
      exact ih (objAssign acc (objAssign [] c))

theorem objGet_mergeContextList_objs (t : String)
    (cs : List (List (String × Json))) (target : List (String × Json))
    (h : ∀ c ∈ cs, NodupKeys c) :
    objGet (mergeContextList target (cs.map Json.obj)) t =
      (lastDefined cs t).orElse (fun _ => objGet target t) := by
  induction cs generalizing target with
  | nil => rfl
  | cons c rest ih =>
      show objGet (mergeContextList (mergeContext target (Json.obj c)) (rest.map Json.obj)) t = _
      rw [ih _ (fun c hc => h c (List.mem_cons_of_mem _ hc)),
        objGet_mergeContext_obj target c t (h c (List.mem_cons_self _ _)),
        lastDefined_cons]
      cases hld : lastDefined rest t with
      | some v => rfl
      | none =>
          show (objGet c t).orElse _ = (ldStep t none c).orElse fun _ => objGet target t
          cases hc : objGet c t <;> simp [ldStep, hc]

/-- C1: context merging is last-write-wins.  For every array of inline
object contexts, resolveContext succeeds and flattens them so that every
term (reserved entries such as @base included) gets the definition of the
highest-index context that defines it, and mergeContext applied to the same
array gives that same highest-index definition, falling back to the prior
target value only when no context defines the term. -/
theorem resolveContext_merge_lastWriteWins
    (env : String → Option Json) (fuel : Nat)
    (cs : List (List (String × Json))) (t : String)
    (h : ∀ c ∈ cs, NodupKeys c) :
    resolveContextF env (fuel + 2) (Json.arr (cs.map Json.obj)) =
        some (resolvedArr cs)
    ∧ objGet (resolvedArr cs) t = lastDefined cs t
    ∧ ∀ target, objGet (mergeContextList target (cs.map Json.obj)) t =
        (lastDefined cs t).orElse (fun _ => objGet target t) := by
  refine ⟨?_, ?_, ?_⟩
  · show resolveContextF env (fuel + 1 + 1) (Json.arr (cs.map Json.obj)) = _
    simp only [resolveContextF]
    exact resolveList_objs env fuel cs []
  · rw [show resolvedArr cs = cs.foldl raStep [] from rfl,
      objGet_foldl_raStep t cs [] h]
    cases hld : lastDefined cs t <;> rfl
  · intro target
    exact objGet_mergeContextList_objs t cs target h

/-- Witness for C1 at a concrete context array where both x and the
reserved @base term are defined twice: the index-1 definitions win. -/
theorem resolveContext_merge_lastWriteWins_witness :
    resolveContextF (fun _ => none) 2
        (Json.arr [Json.obj [("x", Json.str "a"), ("@base", Json.str "b1")],
          Json.obj [("x", Json.str "c"), ("@base", Json.str "b2")]]) =
      some (resolvedArr [[("x", Json.str "a"), ("@base", Json.str "b1")],
        [("x", Json.str "c"), ("@base", Json.str "b2")]])
    ∧ objGet (resolvedArr [[("x", Json.str "a"), ("@base", Json.str "b1")],
        [("x", Json.str "c"), ("@base", Json.str "b2")]]) "@base" =
      lastDefined [[("x", Json.str "a"), ("@base", Json.str "b1")],
        [("x", Json.str "c"), ("@base", Json.str "b2")]] "@base"
    ∧ ∀ target, objGet (mergeContextList target
        ([[("x", Json.str "a"), ("@base", Json.str "b1")],
          [("x", Json.str "c"), ("@base", Json.str "b2")]].map Json.obj)) "@base" =
        (lastDefined [[("x", Json.str "a"), ("@base", Json.str "b1")],
          [("x", Json.str "c"), ("@base", Json.str "b2")]] "@base").orElse
          (fun _ => objGet target "@base") :=
  resolveContext_merge_lastWriteWins (fun _ => none) 0
    [[("x", Json.str "a"), ("@base", Json.str "b1")],
      [("x", Json.str "c"), ("@base", Json.str "b2")]] "@base" (by decide)

/-- JavaScript String.startsWith, on the character lists of the strings. -/
def strStartsWith (s p : String) : Bool := p.data.isPrefixOf s.data

/-- The loop of collectAndLoadContexts over a context array: each element is
collected by g (threading the loaded set through) and the nested result is
Object.assigned onto the accumulator. -/
def collectArrGo
    (g : Json → List String → Option (List (String × Json) × List String)) :
    List Json → List (String × Json) → List String →
      Option (List (String × Json) × List String)
  | [], acc, loaded => some (acc, loaded)
  | c :: rest, acc, loaded =>
      match g c loaded with
      | some (nested, loaded1) =>
          collectArrGo g rest (objAssign acc nested) loaded1
      | none => none

/-- The scan of collectAndLoadContexts over an inline object's entries: any
value that is an object with a truthy @context has that nested term-scoped
context collected by g and Object.assigned onto the accumulator. -/
def collectEntriesGo
    (g : Json → List String → Option (List (String × Json) × List String)) :
    List (String × Json) → List (String × Json) → List String →
      Option (List (String × Json) × List String)
  | [], acc, loaded => some (acc, loaded)
  | (_, v) :: rest, acc, loaded =>
      match v with
      | Json.obj ventries =>
          match objGetTruthy ventries "@context" with
          | some sub =>
              match g sub loaded with
              | some (nested, loaded1) =>
                  collectEntriesGo g rest (objAssign acc nested) loaded1
              | none => none
          | none => collectEntriesGo g rest acc loaded
      | _ => collectEntriesGo g rest acc loaded

/-- document-loader.js collectAndLoadContexts.  A string context resolves to
a URL (http-prefixed strings kept as-is, others resolved against the base by
urlResolve, standing for the Utils.resolveUrl helper whose module is not in
the sources); a URL already in the loaded set contributes the empty object
(the cycle guard); a fetch failure is caught and contributes the empty
object; a fetched document with a truthy @context has that context collected
recursively and then merged over the nested results; arrays are collected
element-wise; inline objects are merged and additionally scanned for
term-scoped nested @context values, which are collected too.  Fuel stands
for the JavaScript call stack; none models exhausted recursion; env none
models a thrown fetch error. -/
def collectF (env : String → Option Json)
    (urlResolve : String → String → String) :
    Nat → Json → String → List String →
      Option (List (String × Json) × List String)
  | 0, _, _, _ => none
  | fuel + 1, ctx, baseUrl, loaded =>
      match ctx with
      | Json.str u =>
          let resolved := if strStartsWith u "http" then u else urlResolve u baseUrl
          if resolved ∈ loaded then some ([], loaded)
          else
            match env resolved with
            | none => some ([], resolved :: loaded)
            | some doc =>
                match doc with
                | Json.obj dentries =>
                    match objGetTruthy dentries "@context" with
                    | some sub =>
                        match collectF env urlResolve fuel sub resolved
                            (resolved :: loaded) with
                        | some (nested, loaded2) =>
                            some (mergeContext (objAssign [] nested) sub, loaded2)
                        | none => none
                    | none => some ([], resolved :: loaded)
                | _ => some ([], resolved :: loaded)
      | Json.arr cs =>
          collectArrGo (fun c l => collectF env urlResolve fuel c baseUrl l)
            cs [] loaded
      | Json.obj entries =>
          collectEntriesGo (fun c l => collectF env urlResolve fuel c baseUrl l)
            entries (mergeContext [] (Json.obj entries)) loaded
      | _ => some ([], loaded)

/-- A term definition with no truthy term-scoped @context inside it. -/
def noScopedCtx : Json → Bool
  | Json.obj es => (objGetTruthy es "@context").isNone
  | _ => true

theorem collectEntriesGo_skip
    (g : Json → List String → Option (List (String × Json) × List String))
    (entries acc : List (String × Json)) (loaded : List String)
    (h : ∀ p ∈ entries, noScopedCtx p.2 = true) :
    collectEntriesGo g entries acc loaded = some (acc, loaded) := by
  induction entries with
  | nil => rfl
  | cons p rest ih =>
      obtain ⟨k, v⟩ := p
      have hv : noScopedCtx v = true := h (k, v) (List.mem_cons_self _ _)
      have hrest := fun q hq => h q (List.mem_cons_of_mem _ hq)
      match v, hv with
      | Json.obj ventries, hv =>
          have hnone : objGetTruthy ventries "@context" = none := by
            simpa [noScopedCtx, Option.isNone_iff_eq_none] using hv
          show collectEntriesGo g ((k, Json.obj ventries) :: rest) acc loaded = _
          simp only [collectEntriesGo, hnone]
          exact ih hrest
      | Json.null, _ => exact ih hrest
      | Json.bool b, _ => exact ih hrest
      | Json.num n, _ => exact ih hrest
      | Json.str s, _ => exact ih hrest
      | Json.arr items, _ => exact ih hrest

/-- Collecting an inline object whose term definitions carry no nested
scoped context yields exactly the mergeContext of that object, with the
loaded set untouched. -/
theorem collectF_obj_plain (env : String → Option Json)
    (urlResolve : String → String → String) (fuel : Nat)
    (entries : List (String × Json)) (baseUrl : String) (loaded : List String)
    (h : ∀ p ∈ entries, noScopedCtx p.2 = true) :
    collectF env urlResolve (fuel + 1) (Json.obj entries) baseUrl loaded =
      some (mergeContext [] (Json.obj entries), loaded) := by
  show collectEntriesGo _ entries (mergeContext [] (Json.obj entries)) loaded = _
  exact collectEntriesGo_skip _ entries _ loaded h

theorem collectF_str_mem (env : String → Option Json)
    (urlResolve : String → String → String) (fuel : Nat) (u base : String)
    (loaded : List String) (hu : strStartsWith u "http" = true)
    (hm : u ∈ loaded) :
    collectF env urlResolve (fuel + 1) (Json.str u) base loaded =
      some ([], loaded) := by
  simp [collectF, hu, hm]

theorem collectF_str_fail (env : String → Option Json)
    (urlResolve : String → String → String) (fuel : Nat) (u base : String)
    (loaded : List String) (hu : strStartsWith u "http" = true)
    (hm : u ∉ loaded) (he : env u = none) :
    collectF env urlResolve (fuel + 1) (Json.str u) base loaded =
      some ([], u :: loaded) := by
  simp [collectF, hu, hm, he]

theorem collectF_str_fetch (env : String → Option Json)
    (urlResolve : String → String → String) (fuel : Nat) (u base : String)
    (loaded : List String) (dentries : List (String × Json)) (sub : Json)
    (hu : strStartsWith u "http" = true) (hm : u ∉ loaded)
    (he : env u = some (Json.obj dentries))
    (hc : objGetTruthy dentries "@context" = some sub) :
    collectF env urlResolve (fuel + 1) (Json.str u) base loaded =
      (collectF env urlResolve fuel sub u (u :: loaded)).map
        (fun p => (mergeContext (objAssign [] p.1) sub, p.2)) := by
  simp only [collectF, hu, if_true, he, hc]
  rw [if_neg hm]
  cases hrec : collectF env urlResolve fuel sub u (u :: loaded) with
  | none => rfl
  | some p => obtain ⟨nested, loaded2⟩ := p; rfl

theorem nodupKeys_mergeContext_obj (target entries : List (String × Json))
    (h : NodupKeys target) :
    NodupKeys (mergeContext target (Json.obj entries)) := by
  cases hsb : objGetTruthy entries "@base" with
  | none =>
      have hm : mergeContext target (Json.obj entries) =
          objAssign target entries := by simp [mergeContext, hsb]
      rw [hm]; exact nodupKeys_objAssign _ _ h
  | some b =>
      cases htb : objGetTruthy target "@base" with
      | some b2 =>
          have hm : mergeContext target (Json.obj entries) =
              objAssign target entries := by simp [mergeContext, hsb, htb]
          rw [hm]; exact nodupKeys_objAssign _ _ h
      | none =>
          have hm : mergeContext target (Json.obj entries) =
              objAssign (objSet target "@base" b) entries := by
            simp [mergeContext, hsb, htb]
          rw [hm]
          exact nodupKeys_objAssign _ _ (nodupKeys_objSet _ _ _ h)

theorem objGet_objAssign_nil_nodup (x : List (String × Json)) (t : String)
    (h : NodupKeys x) : objGet (objAssign [] x) t = objGet x t := by
  rw [objGet_objAssign_nil, lastGet_eq_objGet x t h]

theorem nodupKeys_nil : NodupKeys ([] : List (String × Json)) := by
  simp [NodupKeys, objKeys]

/-- The two-document cyclic context graph of the cycle-safety scenario:
document A's context points at B, document B's context points back at A and
also carries B's own inline term definitions bs. -/
def cycEnvA (bs : List (String × Json)) : String → Option Json := fun u =>
  if u = "http://a" then some (Json.obj [("@context", Json.str "http://b")])
  else if u = "http://b" then
    some (Json.obj [("@context",
      Json.arr [Json.str "http://a", Json.obj bs])])
  else none

/-- On the cyclic A-B context graph, viewer.js resolveContext finds no
bottom: whatever fuel stands in for the JavaScript call stack, the
recursion through B's context, A's reference and back again runs out of it,
so the model returns none at every depth independently of B's own inline
definitions. -/
theorem resolveCycleAux (bs : List (String × Json)) (fuel : Nat) :
    resolveContextF (cycEnvA bs) fuel (Json.str "http://b") = none
    ∧ resolveContextF (cycEnvA bs) fuel (Json.str "http://a") = none
    ∧ resolveContextF (cycEnvA bs) fuel
        (Json.arr [Json.str "http://a", Json.obj bs]) = none := by
  induction fuel with
  | zero => exact ⟨rfl, rfl, rfl⟩
  | succ n ih =>
      have henvA : cycEnvA bs "http://a" =
          some (Json.obj [("@context", Json.str "http://b")]) := by
        simp [cycEnvA]
      have henvB : cycEnvA bs "http://b" =
          some (Json.obj [("@context",
            Json.arr [Json.str "http://a", Json.obj bs])]) := by
        simp [cycEnvA]
      have hogB : objGetTruthy
          [("@context", Json.arr [Json.str "http://a", Json.obj bs])]
          "@context" =
          some (Json.arr [Json.str "http://a", Json.obj bs]) := rfl
      have hogA : objGetTruthy [("@context", Json.str "http://b")] "@context" =
          some (Json.str "http://b") := rfl
      refine ⟨?_, ?_, ?_⟩
      · simp only [resolveContextF, henvB, hogB]
        exact ih.2.2
      · simp only [resolveContextF, henvA, hogA]
        exact ih.1
      · simp only [resolveContextF, resolveList, ih.2.1]

/-- C3 counterexample: the claim covers viewer.js resolveContext too, and
that function has no cycle detection — on the concrete cyclic graph where A
references B and B references A back, its recursion never bottoms out: even
a call stack a thousand frames deep is exhausted, and the model returns
none at every finite call-stack depth, so resolving A's context through
this cited implementation does not terminate, contradicting the claim as
stated. -/
theorem resolveContext_cycle_diverges :
    resolveContextF (cycEnvA []) 1000 (Json.str "http://b") = none
    ∧ ∀ fuel : Nat,
        resolveContextF (cycEnvA []) fuel (Json.str "http://b") = none :=
  ⟨(resolveCycleAux [] 1000).1, fun fuel => (resolveCycleAux [] fuel).1⟩

/-- C3 amended: cycle safety holds for document-loader.js
collectAndLoadContexts, whose currently-loading set is the cycle guard — in
the cyclic graph where A references B and B references A back, collecting
A's context terminates with a defined result whose lookups agree with B's
own term definitions, and any re-encounter of a URL already in the loading
set short-circuits to the empty contribution — while the other cited
resolver, viewer.js resolveContext, has no cycle guard and its recursion on
the same graph finds no bottom at any call-stack depth. -/
theorem collectContexts_cycle_terminates (bs : List (String × Json))
    (urlResolve : String → String → String)
    (h1 : NodupKeys bs) (h2 : ∀ p ∈ bs, noScopedCtx p.2 = true) :
    (∃ r, collectF (cycEnvA bs) urlResolve 6 (Json.str "http://b")
        "http://a" [] = some (r, ["http://a", "http://b"])
      ∧ ∀ t, objGet r t = objGet bs t)
    ∧ (∀ fuel base loaded, "http://b" ∈ loaded →
        collectF (cycEnvA bs) urlResolve (fuel + 1) (Json.str "http://b")
          base loaded = some ([], loaded))
    ∧ (∀ fuel, resolveContextF (cycEnvA bs) fuel (Json.str "http://b") =
        none) := by
  refine ⟨?_, ?_, fun fuel => (resolveCycleAux bs fuel).1⟩
  · -- the innermost call re-encounters B while it is still loading
    have hswB : strStartsWith "http://b" "http" = true := by decide
    have hswA : strStartsWith "http://a" "http" = true := by decide
    have henvA : cycEnvA bs "http://a" =
        some (Json.obj [("@context", Json.str "http://b")]) := by
      simp [cycEnvA]
    have henvB : cycEnvA bs "http://b" =
        some (Json.obj [("@context",
          Json.arr [Json.str "http://a", Json.obj bs])]) := by
      simp [cycEnvA]
    have hstep_inner : collectF (cycEnvA bs) urlResolve 3 (Json.str "http://b")
        "http://a" ["http://a", "http://b"] =
          some ([], ["http://a", "http://b"]) :=
      collectF_str_mem _ _ 2 _ _ _ hswB (by simp)
    have hstep_A : collectF (cycEnvA bs) urlResolve 4 (Json.str "http://a")
        "http://b" ["http://b"] = some ([], ["http://a", "http://b"]) := by
      rw [collectF_str_fetch _ _ 3 _ _ _ [("@context", Json.str "http://b")]
        (Json.str "http://b") hswA (by simp) henvA (by simp [objGetTruthy, objGet, jsTruthy])]
      rw [hstep_inner]
      simp [mergeContext, objAssign]
    have hstep_obj : collectF (cycEnvA bs) urlResolve 4 (Json.obj bs)
        "http://b" ["http://a", "http://b"] =
          some (mergeContext [] (Json.obj bs), ["http://a", "http://b"]) :=
      collectF_obj_plain _ _ 3 bs _ _ h2
    have hstep_arr : collectF (cycEnvA bs) urlResolve 5
        (Json.arr [Json.str "http://a", Json.obj bs]) "http://b" ["http://b"] =
          some (objAssign [] (mergeContext [] (Json.obj bs)),
            ["http://a", "http://b"]) := by
      show collectArrGo _ _ [] ["http://b"] = _
      simp only [collectArrGo, hstep_A, hstep_obj, objAssign]
    have htop : collectF (cycEnvA bs) urlResolve 6 (Json.str "http://b")
        "http://a" [] =
          some (mergeContext
            (objAssign [] (objAssign [] (mergeContext [] (Json.obj bs))))
            (Json.arr [Json.str "http://a", Json.obj bs]),
            ["http://a", "http://b"]) := by
      rw [collectF_str_fetch _ _ 5 _ _ _
        [("@context", Json.arr [Json.str "http://a", Json.obj bs])]
        (Json.arr [Json.str "http://a", Json.obj bs]) hswB (by simp) henvB
        (by simp [objGetTruthy, objGet, jsTruthy])]
      rw [hstep_arr]
      rfl
    refine ⟨_, htop, ?_⟩
    intro t
    have hmrg : mergeContext
        (objAssign [] (objAssign [] (mergeContext [] (Json.obj bs))))
        (Json.arr [Json.str "http://a", Json.obj bs]) =
        mergeContext
          (objAssign [] (objAssign [] (mergeContext [] (Json.obj bs))))
          (Json.obj bs) := by
      simp [mergeContext, mergeContextList]
    rw [hmrg, objGet_mergeContext_obj _ _ _ h1]
    have hM0 : NodupKeys (mergeContext [] (Json.obj bs)) :=
      nodupKeys_mergeContext_obj [] bs nodupKeys_nil
    have hinner : objGet
        (objAssign [] (objAssign [] (mergeContext [] (Json.obj bs)))) t =
        (objGet bs t).orElse (fun _ => none) := by
      rw [objGet_objAssign_nil_nodup _ t (nodupKeys_objAssign [] _ nodupKeys_nil),
        objGet_objAssign_nil_nodup _ t hM0,
        objGet_mergeContext_obj [] bs t h1]
      rfl
    rw [hinner]
    cases hbs : objGet bs t <;> rfl
  · intro fuel base loaded hmem
    exact collectF_str_mem _ _ fuel _ _ _ (by decide) hmem

/-- Witness for C3 at a concrete pair of inline definitions for B. -/
theorem collectContexts_cycle_terminates_witness :
    (∃ r, collectF (cycEnvA [("title", Json.str "http://ex/title"),
        ("kind", Json.obj [("@id", Json.str "http://ex/kind")])])
        (fun s _ => s) 6 (Json.str "http://b") "http://a" [] =
          some (r, ["http://a", "http://b"])
      ∧ ∀ t, objGet r t = objGet [("title", Json.str "http://ex/title"),
          ("kind", Json.obj [("@id", Json.str "http://ex/kind")])] t)
    ∧ (∀ fuel base loaded, "http://b" ∈ loaded →
        collectF (cycEnvA [("title", Json.str "http://ex/title"),
          ("kind", Json.obj [("@id", Json.str "http://ex/kind")])])
          (fun s _ => s) (fuel + 1) (Json.str "http://b") base loaded =
            some ([], loaded))
    ∧ (∀ fuel, resolveContextF (cycEnvA [("title", Json.str "http://ex/title"),
        ("kind", Json.obj [("@id", Json.str "http://ex/kind")])]) fuel
          (Json.str "http://b") = none) :=
  collectContexts_cycle_terminates
    [("title", Json.str "http://ex/title"),
      ("kind", Json.obj [("@id", Json.str "http://ex/kind")])]
    (fun s _ => s) (by decide) (by decide)

/-- C6: graceful degradation on sub-context failure.  A context URL whose
fetch fails contributes the empty mapping (the error is caught, the URL is
recorded as attempted, nothing is raised — the function stays defined); a
sibling inline context in the same array is still resolved and its
definitions all survive in the merged result; viewer.js resolveContext
likewise absorbs the failure into an empty result. -/
theorem subcontextFailure_degradesGracefully (env : String → Option Json)
    (urlResolve : String → String → String) (fuel : Nat) (u base : String)
    (loaded : List String) (m : List (String × Json))
    (henv : env u = none) (hu : strStartsWith u "http" = true)
    (hl : u ∉ loaded) (hm1 : NodupKeys m)
    (hm2 : ∀ p ∈ m, noScopedCtx p.2 = true) :
    collectF env urlResolve (fuel + 1) (Json.str u) base loaded =
        some ([], u :: loaded)
    ∧ collectF env urlResolve (fuel + 3) (Json.arr [Json.str u, Json.obj m])
        base loaded =
        some (objAssign [] (mergeContext [] (Json.obj m)), u :: loaded)
    ∧ (∀ t, objGet (objAssign [] (mergeContext [] (Json.obj m))) t = objGet m t)
    ∧ resolveContextF env (fuel + 1) (Json.str u) = some [] := by
  refine ⟨collectF_str_fail env urlResolve fuel u base loaded hu hl henv,
    ?_, ?_, ?_⟩
  · have hstep1 : collectF env urlResolve (fuel + 2) (Json.str u) base loaded =
        some ([], u :: loaded) :=
      collectF_str_fail env urlResolve (fuel + 1) u base loaded hu hl henv
    have hstep2 : collectF env urlResolve (fuel + 2) (Json.obj m) base
        (u :: loaded) = some (mergeContext [] (Json.obj m), u :: loaded) :=
      collectF_obj_plain env urlResolve (fuel + 1) m base (u :: loaded) hm2
    show collectArrGo _ _ [] loaded = _
    simp only [collectArrGo, hstep1, hstep2, objAssign]
  · intro t
    rw [objGet_objAssign_nil_nodup _ t
        (nodupKeys_mergeContext_obj [] m nodupKeys_nil),
      objGet_mergeContext_obj [] m t hm1]
    cases hmt : objGet m t <;> rfl
  · simp [resolveContextF, henv]

/-- Witness for C6: a dead URL next to a live inline sibling. -/
theorem subcontextFailure_degradesGracefully_witness :
    collectF (fun _ => none) (fun s _ => s) 1 (Json.str "http://bad")
        "http://base" [] = some ([], ["http://bad"])
    ∧ collectF (fun _ => none) (fun s _ => s) 3
        (Json.arr [Json.str "http://bad", Json.obj [("a", Json.str "v")]])
        "http://base" [] =
        some (objAssign [] (mergeContext [] (Json.obj [("a", Json.str "v")])),
          ["http://bad"])
    ∧ (∀ t, objGet (objAssign []
        (mergeContext [] (Json.obj [("a", Json.str "v")]))) t =
        objGet [("a", Json.str "v")] t)
    ∧ resolveContextF (fun _ => none) 1 (Json.str "http://bad") = some [] :=
  subcontextFailure_degradesGracefully (fun _ => none) (fun s _ => s) 0
    "http://bad" "http://base" [] [("a", Json.str "v")] rfl (by decide)
    (by simp) (by decide) (by decide)

/-- The fetch environment of the nested-scoped-context scenario: only the
term-scoped context URL resolves, to a document defining the term nested. -/
def c5env : String → Option Json := fun u =>
  if u = "http://u" then
    some (Json.obj [("@context", Json.obj [("nested", Json.str "http://n")])])
  else none

/-- An inline context object whose single term definition carries a
term-scoped @context reference. -/
def c5ctx : Json :=
  Json.obj [("myterm", Json.obj [("@id", Json.str "http://x"),
    ("@context", Json.str "http://u")])]

/-- Full evaluation of collectAndLoadContexts on the scoped-context
scenario: the term-scoped context is fetched and its definitions merged. -/
theorem collectF_scoped_eval :
    collectF c5env (fun s _ => s) 5 c5ctx "http://base" [] =
      some ([("myterm", Json.obj [("@id", Json.str "http://x"),
          ("@context", Json.str "http://u")]),
        ("nested", Json.str "http://n")], ["http://u"]) := by
  have hsw : strStartsWith "http://u" "http" = true := by decide
  have henv : c5env "http://u" =
      some (Json.obj [("@context",
        Json.obj [("nested", Json.str "http://n")])]) := by
    simp [c5env]
  have hinner : collectF c5env (fun s _ => s) 3
      (Json.obj [("nested", Json.str "http://n")]) "http://u" ["http://u"] =
      some (mergeContext [] (Json.obj [("nested", Json.str "http://n")]),
        ["http://u"]) :=
    collectF_obj_plain _ _ 2 _ _ _ (by decide)
  have hsub : collectF c5env (fun s _ => s) 4 (Json.str "http://u")
      "http://base" [] =
      some ([("nested", Json.str "http://n")], ["http://u"]) := by
    rw [collectF_str_fetch _ _ 3 _ _ _
      [("@context", Json.obj [("nested", Json.str "http://n")])]
      (Json.obj [("nested", Json.str "http://n")]) hsw (by simp) henv rfl]
    rw [hinner]
    have e1 : mergeContext [] (Json.obj [("nested", Json.str "http://n")]) =
        [("nested", Json.str "http://n")] := by
      simp only [mergeContext]; rfl
    rw [e1]
    have e2 : objAssign [] [("nested", Json.str "http://n")] =
        [("nested", Json.str "http://n")] := rfl
    have e3 : mergeContext [("nested", Json.str "http://n")]
        (Json.obj [("nested", Json.str "http://n")]) =
        [("nested", Json.str "http://n")] := by
      simp only [mergeContext]; rfl
    simp only [Option.map, e2, e3]
  show collectEntriesGo _ _ (mergeContext [] c5ctx) [] = _
  have hacc : mergeContext [] c5ctx =
      [("myterm", Json.obj [("@id", Json.str "http://x"),
        ("@context", Json.str "http://u")])] := by
    simp only [c5ctx, mergeContext]; rfl
  rw [hacc]
  have htr : objGetTruthy [("@id", Json.str "http://x"),
      ("@context", Json.str "http://u")] "@context" =
      some (Json.str "http://u") := rfl
  simp only [collectEntriesGo, htr, hsub]
  rfl

/-- C5 counterexample: collectAndLoadContexts on an inline context object
does follow the term-scoped @context found inside the term's definition —
the referenced context is fetched and its definition of nested lands in the
flattened result, contradicting the claim that such nested contexts are
never expanded and contribute nothing. -/
theorem scopedContext_expanded_counterexample :
    collectF c5env (fun s _ => s) 5 c5ctx "http://base" [] =
      some ([("myterm", Json.obj [("@id", Json.str "http://x"),
          ("@context", Json.str "http://u")]),
        ("nested", Json.str "http://n")], ["http://u"]) :=
  collectF_scoped_eval

/-- C5 amended: the scope boundary holds for viewer.js resolveContext — an
inline context object is returned as-is, independently of the fetch
environment, so no nested term-scoped context is expanded there — while
document-loader.js collectAndLoadContexts does expand term-scoped nested
@context references and merges their definitions into the flattened
result. -/
theorem inlineContext_scopeBoundary :
    (∀ (env env2 : String → Option Json) (fuel : Nat)
      (entries : List (String × Json)),
        resolveContextF env (fuel + 1) (Json.obj entries) =
          some (objAssign [] entries)
        ∧ resolveContextF env (fuel + 1) (Json.obj entries) =
          resolveContextF env2 (fuel + 1) (Json.obj entries))
    ∧ (collectF c5env (fun s _ => s) 5 c5ctx "http://base" []).map
        (fun p => objGet p.1 "nested") = some (some (Json.str "http://n")) := by
  constructor
  · intro env env2 fuel entries
    constructor <;> simp [resolveContextF]
  · rw [collectF_scoped_eval]
    simp [objGet]

/-- The link-property test of viewer.js findLinkedUrlsFromContext (and the
identical test in manuallyExpandObject): the definition is an object whose
@type property is strictly equal to the string @id. -/
def isIdDef : Json → Bool
  | Json.obj ventries =>
      match objGet ventries "@type" with
      | some (Json.str ty) => ty == "@id"
      | _ => false
  | _ => false

/-- The object-context branch of processContext: the keys marked as link
properties, in order. -/
def objLinkKeys : List (String × Json) → List String
  | [] => []
  | (k, v) :: rest =>
      if isIdDef v then k :: objLinkKeys rest else objLinkKeys rest

/-- The loop of processContext over a context array. -/
def linkMarksArr (f : Json → Option (List String)) :
    List Json → Option (List String)
  | [] => some []
  | c :: rest =>
      match f c with
      | some ks =>
          match linkMarksArr f rest with
          | some ks2 => some (ks ++ ks2)
          | none => none
      | none => none

/-- viewer.js findLinkedUrlsFromContext processContext: walks a context
value — fetching http string contexts and following their truthy @context,
iterating arrays — and marks every term of an object context whose
definition passes isIdDef as a link property; the marked keys are returned
in order.  Fuel stands for the JavaScript call stack. -/
def linkMarksF (env : String → Option Json) : Nat → Json → Option (List String)
  | 0, _ => none
  | fuel + 1, ctx =>
      match ctx with
      | Json.str u =>
          if strStartsWith u "http" then
            match env u with
            | some doc =>
                match doc with
                | Json.obj dentries =>
                    match objGetTruthy dentries "@context" with
                    | some sub => linkMarksF env fuel sub
                    | none => some []
                | _ => some []
            | none => some []
          else some []
      | Json.arr cs => linkMarksArr (fun c => linkMarksF env fuel c) cs
      | Json.obj entries => some (objLinkKeys entries)
      | _ => some []

/-- C4 counterexample: a term whose definition carries @type equal to
@vocab is not classified linked by the viewer code — neither by the
processContext marking nor through the isIdDef test — contradicting the
claim that @type of @id or @vocab is classified linked. -/
theorem linkedClassification_vocab_counterexample :
    objLinkKeys [("experiment", Json.obj [("@id", Json.str "wcrp:experiment"),
        ("@type", Json.str "@vocab")])] = []
    ∧ linkMarksF (fun _ => none) 1
        (Json.obj [("experiment", Json.obj [("@id", Json.str "wcrp:experiment"),
          ("@type", Json.str "@vocab")])]) = some []
    ∧ isIdDef (Json.obj [("@id", Json.str "wcrp:experiment"),
        ("@type", Json.str "@vocab")]) = false := by
  refine ⟨rfl, ?_, rfl⟩
  show some (objLinkKeys _) = _
  rfl

/-- C4 amended: a term of a resolved object context is classified linked if
and only if its definition is an object whose @type is the string @id (so
@vocab-typed definitions and bare-string definitions are never linked). -/
theorem linkedClassification_idOnly (entries : List (String × Json))
    (t : String) :
    (t ∈ objLinkKeys entries ↔ ∃ v, (t, v) ∈ entries ∧ isIdDef v = true)
    ∧ ∀ (env : String → Option Json) (fuel : Nat),
        linkMarksF env (fuel + 1) (Json.obj entries) =
          some (objLinkKeys entries) := by
  constructor
  · induction entries with
    | nil => simp [objLinkKeys]
    | cons p rest ih =>
        obtain ⟨k, v⟩ := p
        constructor
        · intro hmem
          by_cases hv : isIdDef v = true
          · have heq : objLinkKeys ((k, v) :: rest) = k :: objLinkKeys rest := by
              simp [objLinkKeys, hv]
            rw [heq] at hmem
            rcases List.mem_cons.mp hmem with h | h
            · subst h
              exact ⟨v, List.mem_cons_self _ _, hv⟩
            · obtain ⟨w, hw, hiw⟩ := ih.mp h
              exact ⟨w, List.mem_cons_of_mem _ hw, hiw⟩
          · have heq : objLinkKeys ((k, v) :: rest) = objLinkKeys rest := by
              simp [objLinkKeys, hv]
            rw [heq] at hmem
            obtain ⟨w, hw, hiw⟩ := ih.mp hmem
            exact ⟨w, List.mem_cons_of_mem _ hw, hiw⟩
        · rintro ⟨w, hw, hiw⟩
          rcases List.mem_cons.mp hw with h | h
          · have ht : t = k := congrArg Prod.fst h
            have hwv : w = v := congrArg Prod.snd h
            have hv : isIdDef v = true := by rw [← hwv]; exact hiw
            subst ht
            have heq : objLinkKeys ((t, v) :: rest) = t :: objLinkKeys rest := by
              simp [objLinkKeys, hv]
            rw [heq]
            exact List.mem_cons_self _ _
          · have hrec := ih.mpr ⟨w, h, hiw⟩
            by_cases hv : isIdDef v = true
            · have heq : objLinkKeys ((k, v) :: rest) = k :: objLinkKeys rest := by
                simp [objLinkKeys, hv]
              rw [heq]
              exact List.mem_cons_of_mem _ hrec
            · have heq : objLinkKeys ((k, v) :: rest) = objLinkKeys rest := by
                simp [objLinkKeys, hv]
              rw [heq]
              exact hrec
  · intro env fuel
    rfl

/-- Witness for C4: instantiating the classification at the linked term of
a concrete context containing one @id-typed, one @vocab-typed and one
bare-string definition. -/
theorem linkedClassification_idOnly_witness :
    ("activity" ∈ objLinkKeys [("activity", Json.obj [("@id", Json.str "ex:activity"),
        ("@type", Json.str "@id")]),
      ("experiment", Json.obj [("@id", Json.str "ex:experiment"),
        ("@type", Json.str "@vocab")]),
      ("name", Json.str "ex:name")]
    ↔ ∃ v, ("activity", v) ∈ [("activity", Json.obj [("@id", Json.str "ex:activity"),
        ("@type", Json.str "@id")]),
      ("experiment", Json.obj [("@id", Json.str "ex:experiment"),
        ("@type", Json.str "@vocab")]),
      ("name", Json.str "ex:name")] ∧ isIdDef v = true)
    ∧ ∀ (env : String → Option Json) (fuel : Nat),
        linkMarksF env (fuel + 1)
          (Json.obj [("activity", Json.obj [("@id", Json.str "ex:activity"),
              ("@type", Json.str "@id")]),
            ("experiment", Json.obj [("@id", Json.str "ex:experiment"),
              ("@type", Json.str "@vocab")]),
            ("name", Json.str "ex:name")]) =
          some (objLinkKeys [("activity", Json.obj [("@id", Json.str "ex:activity"),
              ("@type", Json.str "@id")]),
            ("experiment", Json.obj [("@id", Json.str "ex:experiment"),
              ("@type", Json.str "@vocab")]),
            ("name", Json.str "ex:name")]) :=
  linkedClassification_idOnly
    [("activity", Json.obj [("@id", Json.str "ex:activity"),
        ("@type", Json.str "@id")]),
      ("experiment", Json.obj [("@id", Json.str "ex:experiment"),
        ("@type", Json.str "@vocab")]),
      ("name", Json.str "ex:name")] "activity"

/-- The single-@id reference test of viewer.js substituteLinks: an object
with exactly one property, named @id, holding a truthy string present in
the substitution map, resolves to the mapped entity. -/
def refTarget (map : List (String × Json)) : Json → Option Json
  | Json.obj [(k, Json.str u)] =>
      if k = "@id" ∧ u ≠ "" then objGet map u else none
  | _ => none

mutual

/-- viewer.js substituteLinks.  The counter rem stands for
maxDepth + 1 - depth, the distance left to the depth limit: rem = 0 is the
source guard depth > maxDepth and returns the data untouched (references
are left unexpanded rather than failing).  Substituting a mapped reference
recurses into the substituted entity one level deeper (rem - 1); walking
into arrays and plain values keeps the depth.  The JavaScript visited set
tracks object identity along the current path; JSON produced by JSON.parse
is a tree in which an object never contains itself, so the identity check
never fires and is dropped from the model. -/
def substW (map : List (String × Json)) : Nat → Json → Json
  | 0, data => data
  | rem + 1, Json.arr items => Json.arr (substWArr map rem items)
  | rem + 1, Json.obj entries => Json.obj (substWEntries map rem entries)
  | _ + 1, data => data
termination_by rem data => (rem, sizeOf data, 1)

/-- Top-level array walk of substituteLinks (no per-item reference check in
the source at this level). -/
def substWArr (map : List (String × Json)) : Nat → List Json → List Json
  | _, [] => []
  | rem, item :: rest => substW map (rem + 1) item :: substWArr map rem rest
termination_by rem items => (rem + 1, sizeOf items, 0)

/-- Object-entry walk of substituteLinks: a mapped single-@id value is
substituted (one level deeper), an array value is walked item-wise with the
per-item reference check, any other value is walked at the same depth. -/
def substWEntries (map : List (String × Json)) :
    Nat → List (String × Json) → List (String × Json)
  | _, [] => []
  | rem, (k, v) :: rest =>
      (match refTarget map v with
       | some e => (k, substW map rem e)
       | none =>
          match v with
          | Json.arr items => (k, Json.arr (substWItems map rem items))
          | Json.obj es => (k, substW map (rem + 1) (Json.obj es))
          | Json.null => (k, substW map (rem + 1) Json.null)
          | Json.bool b => (k, substW map (rem + 1) (Json.bool b))
          | Json.num n => (k, substW map (rem + 1) (Json.num n))
          | Json.str s => (k, substW map (rem + 1) (Json.str s))) ::
        substWEntries map rem rest
termination_by rem entries => (rem + 1, sizeOf entries, 0)

/-- Array-value walk of substituteLinks inside an object entry: each item
that is a mapped single-@id reference is substituted one level deeper,
other items are walked at the same depth. -/
def substWItems (map : List (String × Json)) : Nat → List Json → List Json
  | _, [] => []
  | rem, item :: rest =>
      (match refTarget map item with
       | some e => substW map rem e
       | none => substW map (rem + 1) item) :: substWItems map rem rest
termination_by rem items => (rem + 1, sizeOf items, 0)

end

/-- viewer.js substituteLinks with its source signature: data, substitution
map, current depth and maxDepth (the source defaults depth to 0 and
maxDepth to 10).  The guard depth > maxDepth returns data unchanged. -/
def substituteLinks (map : List (String × Json)) (maxDepth depth : Nat)
    (data : Json) : Json :=
  substW map (maxDepth + 1 - depth) data

/-- A bare JSON-LD reference object. -/
def refJ (u : String) : Json := Json.obj [("@id", Json.str u)]

/-- The three-deep link chain of the depth-limit scenario: the document
links to A, A links to B, B links to C. -/
def c8map : List (String × Json) :=
  [("http://a", Json.obj [("g", refJ "http://b")]),
    ("http://b", Json.obj [("h", refJ "http://c")]),
    ("http://c", Json.obj [("x", Json.str "leaf")])]

/-- C8: depth limiting of linked-document substitution.  Whenever the
current depth exceeds maxDepth the traversal returns the data untouched, so
references beyond the limit stay unexpanded reference objects instead of
failing; concretely, substituting the three-deep chain with maxDepth 1
leaves the depth-3 target C as the bare reference object. -/
theorem substituteLinks_depthLimited :
    (∀ (map : List (String × Json)) (maxDepth depth : Nat) (data : Json),
        depth > maxDepth → substituteLinks map maxDepth depth data = data)
    ∧ substituteLinks c8map 1 0 (Json.obj [("f", refJ "http://a")]) =
        Json.obj [("f", Json.obj [("g", Json.obj [("h", refJ "http://c")])])] := by
  constructor
  · intro map maxDepth depth data h
    have h0 : maxDepth + 1 - depth = 0 := by omega
    show substW map (maxDepth + 1 - depth) data = data
    rw [h0]
    simp [substW]
  · show substW c8map 2 (Json.obj [("f", refJ "http://a")]) = _
    simp only [refJ]
    have h1 : refTarget c8map (Json.obj [("@id", Json.str "http://a")]) =
        some (Json.obj [("g", Json.obj [("@id", Json.str "http://b")])]) := rfl
    have h2 : refTarget c8map (Json.obj [("@id", Json.str "http://b")]) =
        some (Json.obj [("h", Json.obj [("@id", Json.str "http://c")])]) := rfl
    have s0 : substW c8map 0
        (Json.obj [("h", Json.obj [("@id", Json.str "http://c")])]) =
        Json.obj [("h", Json.obj [("@id", Json.str "http://c")])] := by
      simp [substW]
    have sE0 : substWEntries c8map 0
        [("g", Json.obj [("@id", Json.str "http://b")])] =
        [("g", Json.obj [("h", Json.obj [("@id", Json.str "http://c")])])] := by
      simp only [substWEntries, h2, s0]
    have s1 : substW c8map 1 (Json.obj [("g", Json.obj [("@id", Json.str "http://b")])]) =
        Json.obj [("g", Json.obj [("h", Json.obj [("@id", Json.str "http://c")])])] := by
      show substW c8map (0 + 1) _ = _
      simp only [substW]
      rw [sE0]
    have sE1 : substWEntries c8map 1
        [("f", Json.obj [("@id", Json.str "http://a")])] =
        [("f", Json.obj [("g", Json.obj [("h",
          Json.obj [("@id", Json.str "http://c")])])])] := by
      simp only [substWEntries, h1, s1]
    show substW c8map (1 + 1) _ = _
    simp only [substW]
    rw [sE1]

/-- Witness for C8: depth 2 already exceeds maxDepth 1, so a reference
object survives untouched. -/
theorem substituteLinks_depthLimited_witness :
    2 > 1 ∧ substituteLinks c8map 1 2 (refJ "http://a") = refJ "http://a" :=
  ⟨by decide, substituteLinks_depthLimited.1 c8map 1 2 (refJ "http://a") (by decide)⟩

/-- Insertion of a string into a sorted list, keeping order. -/
def insertSorted (x : String) : List String → List String
  | [] => [x]
  | y :: rest => if x ≤ y then x :: y :: rest else y :: insertSorted x rest

/-- Ascending sort of strings (Python sorted over str keys: lexicographic,
here by character order as in the source's ASCII identifiers). -/
def sortStrings : List String → List String
  | [] => []
  | x :: rest => insertSorted x (sortStrings rest)

theorem mem_insertSorted (x a : String) (l : List String) :
    a ∈ insertSorted x l ↔ a = x ∨ a ∈ l := by
  induction l with
  | nil => simp [insertSorted]
  | cons y rest ih =>
      by_cases h : x ≤ y
      · simp [insertSorted, h, List.mem_cons]
      · simp only [insertSorted, if_neg h, List.mem_cons, ih]
        tauto

theorem mem_sortStrings (a : String) (l : List String) :
    a ∈ sortStrings l ↔ a ∈ l := by
  induction l with
  | nil => simp [sortStrings]
  | cons x rest ih =>
      simp [sortStrings, mem_insertSorted, ih]

theorem pairwise_insertSorted (x : String) (l : List String)
    (h : List.Pairwise (· ≤ ·) l) :
    List.Pairwise (· ≤ ·) (insertSorted x l) := by
  induction l with
  | nil => simp [insertSorted]
  | cons y rest ih =>
      rcases List.pairwise_cons.mp h with ⟨hy, hrest⟩
      by_cases hxy : x ≤ y
      · rw [show insertSorted x (y :: rest) = x :: y :: rest from by
          simp [insertSorted, hxy]]
        refine List.pairwise_cons.mpr ⟨?_, h⟩
        intro a ha
        rcases List.mem_cons.mp ha with h1 | h1
        · rw [h1]; exact hxy
        · exact le_trans hxy (hy a h1)
      · rw [show insertSorted x (y :: rest) = y :: insertSorted x rest from by
          simp [insertSorted, hxy]]
        refine List.pairwise_cons.mpr ⟨?_, ih hrest⟩
        intro a ha
        rcases (mem_insertSorted x a rest).mp ha with h1 | h1
        · rw [h1]; exact le_of_not_le hxy
        · exact hy a h1

theorem pairwise_sortStrings (l : List String) :
    List.Pairwise (· ≤ ·) (sortStrings l) := by
  induction l with
  | nil => simp [sortStrings]
  | cons x rest ih => exact pairwise_insertSorted x _ ih

/-- The four keys JSONValidator.sort_json_keys places first, in order. -/
def priorityKeys : List String := ["id", "validation-key", "ui-label", "description"]

/-- The remaining keys of the object — everything except the priority keys,
@context and type — in ascending order. -/
def sortedRemaining (data : List (String × Json)) : List String :=
  sortStrings ((objKeys data).filter (fun k =>
    !(priorityKeys.contains k) && !(["@context", "type"].contains k)))

/-- The key/value pairs of data for the given keys, in that key order,
keeping only keys the object defines. -/
def keysToPairs (data : List (String × Json)) (ks : List String) :
    List (String × Json) :=
  ks.filterMap (fun k => (objGet data k).map (fun v => (k, v)))

/-- The singleton assignment sorted_data[k] = data[k] performed when k is
present in data, and nothing otherwise. -/
def optPair (data : List (String × Json)) (k : String) : List (String × Json) :=
  match objGet data k with
  | some v => [(k, v)]
  | none => []

/-- JSONValidator.sort_json_keys: priority keys first (those present), then
the other keys except @context and type in ascending order, then @context,
then type. -/
def sortJsonKeys (data : List (String × Json)) : List (String × Json) :=
  let priorityPart := priorityKeys.filterMap
    (fun k => (objGet data k).map (fun v => (k, v)))
  let remainingPart := (sortedRemaining data).filterMap
    (fun k => (objGet data k).map (fun v => (k, v)))
  priorityPart ++ remainingPart ++ optPair data "@context" ++ optPair data "type"

theorem keysToPairs_cons_some (data : List (String × Json)) (k1 : String)
    (v : Json) (rest : List String) (h1 : objGet data k1 = some v) :
    keysToPairs data (k1 :: rest) = (k1, v) :: keysToPairs data rest := by
  simp [keysToPairs, h1]

theorem keysToPairs_cons_none (data : List (String × Json)) (k1 : String)
    (rest : List String) (h1 : objGet data k1 = none) :
    keysToPairs data (k1 :: rest) = keysToPairs data rest := by
  simp [keysToPairs, h1]

theorem objGet_keysToPairs (data : List (String × Json)) (ks : List String)
    (k : String) :
    objGet (keysToPairs data ks) k =
      if k ∈ ks then objGet data k else none := by
  induction ks with
  | nil => simp [keysToPairs, objGet]
  | cons k1 rest ih =>
      cases h1 : objGet data k1 with
      | some v =>
          rw [keysToPairs_cons_some data k1 v rest h1]
          by_cases hk : k1 = k
          · subst hk
            simp [objGet, h1]
          · have hkk : ¬ k = k1 := fun hc => hk hc.symm
            simp only [objGet, if_neg hk]
            rw [ih]
            by_cases hm : k ∈ rest <;> simp [hm, hkk]
      | none =>
          rw [keysToPairs_cons_none data k1 rest h1, ih]
          by_cases hk : k = k1
          · subst hk
            by_cases hm : k ∈ rest <;> simp [hm, h1]
          · by_cases hm : k ∈ rest <;> simp [hm, hk]

theorem keysToPairs_append (data : List (String × Json)) (ks1 ks2 : List String) :
    keysToPairs data (ks1 ++ ks2) =
      keysToPairs data ks1 ++ keysToPairs data ks2 := by
  simp [keysToPairs, List.filterMap_append]

theorem sortJsonKeys_eq_keysToPairs (data : List (String × Json)) :
    sortJsonKeys data =
      keysToPairs data
        (priorityKeys ++ (sortedRemaining data ++ ["@context", "type"])) := by
  rw [keysToPairs_append, keysToPairs_append]
  have hend : keysToPairs data ["@context", "type"] =
      optPair data "@context" ++ optPair data "type" := by
    cases h1 : objGet data "@context" <;> cases h2 : objGet data "type" <;>
      simp [keysToPairs, optPair, h1, h2]
  rw [hend]
  show _ ++ _ ++ _ ++ _ = _
  simp [keysToPairs, List.append_assoc]

theorem mem_objKeys_of_objGet (l : List (String × Json)) (k : String)
    (v : Json) (h : objGet l k = some v) : k ∈ objKeys l := by
  induction l with
  | nil => cases h
  | cons p rest ih =>
      obtain ⟨k0, v0⟩ := p
      by_cases h0 : k0 = k
      · subst h0
        simp [objKeys]
      · simp only [objGet, if_neg h0] at h
        simp [objKeys] at ih ⊢
        exact Or.inr (by simpa [objKeys] using ih h)

/-- C9: sort_json_keys returns exactly the input mapping — every lookup
unchanged, no key added or removed — ordered as: the priority keys id,
validation-key, ui-label, description first, then all other keys except
@context and type in ascending order, then @context, then type; the middle
section is sorted ascending. -/
theorem sortJsonKeys_preserves_and_orders (data : List (String × Json)) :
    (∀ k, objGet (sortJsonKeys data) k = objGet data k)
    ∧ (sortJsonKeys data).map Prod.fst =
        (priorityKeys ++ (sortedRemaining data ++ ["@context", "type"])).filter
          (fun k => (objGet data k).isSome)
    ∧ List.Pairwise (· ≤ ·) (sortedRemaining data) := by
  refine ⟨?_, ?_, pairwise_sortStrings _⟩
  · intro k
    rw [sortJsonKeys_eq_keysToPairs, objGet_keysToPairs]
    by_cases hm : k ∈ priorityKeys ++ (sortedRemaining data ++ ["@context", "type"])
    · rw [if_pos hm]
    · rw [if_neg hm]
      cases hkd : objGet data k with
      | none => rfl
      | some v =>
          exfalso
          apply hm
          have hkey : k ∈ objKeys data := mem_objKeys_of_objGet data k v hkd
          by_cases hp : k ∈ priorityKeys
          · exact List.mem_append.mpr (Or.inl hp)
          · refine List.mem_append.mpr (Or.inr ?_)
            by_cases hc : k = "@context"
            · exact List.mem_append.mpr (Or.inr (by simp [hc]))
            · by_cases htp : k = "type"
              · exact List.mem_append.mpr (Or.inr (by simp [htp]))
              · refine List.mem_append.mpr (Or.inl ?_)
                have : k ∈ sortStrings ((objKeys data).filter (fun k =>
                    !(priorityKeys.contains k) &&
                    !(["@context", "type"].contains k))) := by
                  rw [mem_sortStrings]
                  refine List.mem_filter.mpr ⟨hkey, ?_⟩
                  simp [hp, hc, htp]
                exact this
  · rw [sortJsonKeys_eq_keysToPairs]
    generalize priorityKeys ++ (sortedRemaining data ++ ["@context", "type"]) = ks
    induction ks with
    | nil => rfl
    | cons k1 rest ih =>
        cases h1 : objGet data k1 with
        | some v =>
            rw [keysToPairs_cons_some data k1 v rest h1, List.map_cons, ih,
              List.filter_cons]
            simp [h1]
        | none =>
            rw [keysToPairs_cons_none data k1 rest h1, ih, List.filter_cons]
            simp [h1]

/-- The document cache state of DocumentLoader. -/
structure LoaderState where
  loadedDocuments : List (String × Json)

/-- The CORS-proxy loop of fetchDocument: each proxy is tried in order on
proxy ++ encodeURIComponent(url); net models fetch plus response parsing
(none is a thrown error), encode models the encodeURIComponent builtin.
Returns the outcome and every request URL attempted, in order; when every
proxy fails the last error is rethrown (modelled as an error value). -/
def tryProxiesGo (net : String → Option Json) (encode : String → String)
    (url : String) :
    List String → List String → Except String Json × List String
  | [], attempted => (Except.error ("Failed to fetch " ++ url), attempted.reverse)
  | p :: rest, attempted =>
      let fetchUrl := p ++ encode url
      match net fetchUrl with
      | some data => (Except.ok data, (fetchUrl :: attempted).reverse)
      | none => tryProxiesGo net encode url rest (fetchUrl :: attempted)

/-- document-loader.js fetchDocument: a cached URL returns the cached
document with no request; otherwise a URL not starting with http throws
Invalid URL before any network activity; otherwise the proxies are tried in
order and a success is cached.  The third component lists the network
requests issued. -/
def fetchDocument (proxies : List String) (net : String → Option Json)
    (encode : String → String) (st : LoaderState) (url : String) :
    Except String Json × LoaderState × List String :=
  match objGet st.loadedDocuments url with
  | some d => (Except.ok d, st, [])
  | none =>
      if strStartsWith url "http" then
        match tryProxiesGo net encode url proxies [] with
        | (Except.ok data, reqs) =>
            (Except.ok data,
              { loadedDocuments := objSet st.loadedDocuments url data }, reqs)
        | (Except.error e, reqs) => (Except.error e, st, reqs)
      else
        (Except.error ("Invalid URL: " ++ url), st, [])

/-- Every key the document cache can hold starts with http: the invariant
of all states reachable from the fresh loader. -/
def cacheOk (st : LoaderState) : Prop :=
  ∀ k ∈ objKeys st.loadedDocuments, strStartsWith k "http" = true

/-- C10: fetchDocument rejects every URL that does not start with http —
it throws Invalid URL, issues no network request, touches no proxy, and
leaves the cache unchanged — and every fetch from a well-formed cache
leaves the cache well-formed (only http URLs are ever cached), so local
filesystem paths are always rejected. -/
theorem fetchDocument_rejects_nonhttp (proxies : List String)
    (net : String → Option Json) (encode : String → String)
    (st : LoaderState) (url : String)
    (hst : cacheOk st) (hurl : strStartsWith url "http" = false) :
    fetchDocument proxies net encode st url =
      (Except.error ("Invalid URL: " ++ url), st, [])
    ∧ ∀ u2, cacheOk (fetchDocument proxies net encode st u2).2.1 := by
  constructor
  · have hmiss : objGet st.loadedDocuments url = none := by
      apply objGet_eq_none_of_not_mem
      intro hmem
      rw [hst url hmem] at hurl
      exact Bool.noConfusion hurl
    simp [fetchDocument, hmiss, hurl]
  · intro u2
    cases hhit : objGet st.loadedDocuments u2 with
    | some d =>
        simp only [fetchDocument, hhit]
        exact hst
    | none =>
        by_cases hs : strStartsWith u2 "http" = true
        · rcases hres : tryProxiesGo net encode u2 proxies [] with ⟨r, reqs⟩
          cases r with
          | ok data =>
              simp only [fetchDocument, hhit, hs, if_true, hres]
              intro k hk
              rcases (mem_objKeys_objSet st.loadedDocuments u2 k data).mp hk
                with h | h
              · exact hst k h
              · rw [h]; exact hs
          | error e =>
              simp only [fetchDocument, hhit, hs, if_true, hres]
              exact hst
        · have hs' : strStartsWith u2 "http" = false := by
            cases h : strStartsWith u2 "http"
            · rfl
            · exact absurd h hs
          simp only [fetchDocument, hhit, hs']
          simp only [Bool.false_eq_true, if_false]
          exact hst

/-- Witness for C10: a local filesystem path against a fresh loader. -/
theorem fetchDocument_rejects_nonhttp_witness :
    fetchDocument ["https://proxy/?u="] (fun _ => some Json.null) id
        ⟨[]⟩ "file:///etc/passwd" =
      (Except.error ("Invalid URL: " ++ "file:///etc/passwd"), ⟨[]⟩, [])
    ∧ ∀ u2, cacheOk (fetchDocument ["https://proxy/?u="]
        (fun _ => some Json.null) id ⟨[]⟩ u2).2.1 :=
  fetchDocument_rejects_nonhttp ["https://proxy/?u="] (fun _ => some Json.null)
    id ⟨[]⟩ "file:///etc/passwd"
    (by intro k hk; simp [objKeys] at hk) (by decide)

/-- The ASCII upper-to-lower table used to model Python str.lower on the
identifier values this tool normalizes. -/
def upperLowerTable : List (Char × Char) :=
  [('A', 'a'), ('B', 'b'), ('C', 'c'), ('D', 'd'), ('E', 'e'), ('F', 'f'),
    ('G', 'g'), ('H', 'h'), ('I', 'i'), ('J', 'j'), ('K', 'k'), ('L', 'l'),
    ('M', 'm'), ('N', 'n'), ('O', 'o'), ('P', 'p'), ('Q', 'q'), ('R', 'r'),
    ('S', 's'), ('T', 't'), ('U', 'u'), ('V', 'v'), ('W', 'w'), ('X', 'x'),
    ('Y', 'y'), ('Z', 'z')]

/-- Modelled from the spec: the lower-casing step of normalize_link_values
(the ContextManager method the validate_json README lists as not implemented
in the sources), per character. -/
def lowChar (c : Char) : Char :=
  match upperLowerTable.find? (fun p => p.1 == c) with
  | some p => p.2
  | none => c

/-- Modelled from the spec: one character of the normalization — lower-case,
then underscore becomes hyphen. -/
def mapChar (c : Char) : Char :=
  let c1 := lowChar c
  if c1 = '_' then '-' else c1

/-- Modelled from the spec: lower-case the value and replace underscores
with hyphens. -/
def lowerHyphen (s : String) : String := String.mk (s.data.map mapChar)

/-- Modelled from the spec: a full absolute URI of the preserved schemes
http://, https://, urn:, mailto:. -/
def isFullUri (s : String) : Bool :=
  strStartsWith s "http://" || strStartsWith s "https://" ||
    strStartsWith s "urn:" || strStartsWith s "mailto:"

/-- Modelled from the spec: a prefixed name whose segment before the first
colon is entirely upper-case — no lower-case letter and at least one
upper-case letter, so digit-bearing codes such as CMIP6 qualify, matching
the specification's own example. -/
def upperSeg (s : String) : Bool :=
  let seg := s.data.takeWhile (fun c => c != ':')
  s.data.contains ':' && !seg.isEmpty &&
    seg.all (fun c => !c.isLower) && seg.any (fun c => c.isUpper)

/-- Modelled from the spec: normalize_link_values on one linked string
value — full URIs and upper-case-prefixed names are preserved, everything
else is lower-cased with underscores turned into hyphens. -/
def normalizeValue (s : String) : String :=
  if isFullUri s then s
  else if upperSeg s then s
  else lowerHyphen s

theorem lowChar_idem (c : Char) : lowChar (lowChar c) = lowChar c := by
  cases hf : upperLowerTable.find? (fun p => p.1 == c) with
  | none => simp [lowChar, hf]
  | some p =>
      have hmem : p ∈ upperLowerTable := List.mem_of_find?_eq_some hf
      have hall : ∀ q ∈ upperLowerTable,
          upperLowerTable.find? (fun r => r.1 == q.2) = none := by decide
      simp [lowChar, hf, hall p hmem]

theorem mapChar_idem (c : Char) : mapChar (mapChar c) = mapChar c := by
  by_cases h : lowChar c = '_'
  · have h1 : mapChar c = '-' := by simp [mapChar, h]
    rw [h1]
    rfl
  · have h1 : mapChar c = lowChar c := by simp [mapChar, h]
    rw [h1]
    simp [mapChar, lowChar_idem, h]

theorem lowerHyphen_idem (s : String) :
    lowerHyphen (lowerHyphen s) = lowerHyphen s := by
  show String.mk (((s.data).map mapChar).map mapChar) = _
  rw [List.map_map]
  congr 1
  exact List.map_congr_left (fun a _ => mapChar_idem a)

/-- C7: linked-value normalization.  Full absolute URIs are left unchanged,
upper-case-prefixed names are left unchanged, normalization is idempotent
on every string, and the specification's concrete examples normalize as
stated. -/
theorem normalizeValue_spec (s : String) :
    (isFullUri s = true → normalizeValue s = s)
    ∧ (upperSeg s = true → normalizeValue s = s)
    ∧ normalizeValue (normalizeValue s) = normalizeValue s
    ∧ normalizeValue "CMIP6_Historical_Run" = "cmip6-historical-run"
    ∧ normalizeValue "https://Example.com/Path" = "https://Example.com/Path"
    ∧ normalizeValue "CMIP6:SomeTerm" = "CMIP6:SomeTerm" := by
  refine ⟨?_, ?_, ?_, by decide, by decide, by decide⟩
  · intro h
    simp [normalizeValue, h]
  · intro h
    by_cases h1 : isFullUri s = true <;> simp [normalizeValue, h1, h]
  · by_cases h1 : isFullUri s = true
    · simp [normalizeValue, h1]
    · by_cases h2 : upperSeg s = true
      · simp [normalizeValue, h1, h2]
      · have hs : normalizeValue s = lowerHyphen s := by
          simp [normalizeValue, h1, h2]
        rw [hs]
        by_cases h3 : isFullUri (lowerHyphen s) = true
        · simp [normalizeValue, h3]
        · by_cases h4 : upperSeg (lowerHyphen s) = true
          · simp [normalizeValue, h3, h4]
          · simp [normalizeValue, h3, h4, lowerHyphen_idem]

/-- Witness for C7 at the specification's full-URI and prefixed examples. -/
theorem normalizeValue_spec_witness :
    isFullUri "https://Example.com/Path" = true
    ∧ normalizeValue "https://Example.com/Path" = "https://Example.com/Path"
    ∧ upperSeg "CMIP6:SomeTerm" = true
    ∧ normalizeValue "CMIP6:SomeTerm" = "CMIP6:SomeTerm"
    ∧ normalizeValue (normalizeValue "CMIP6_Historical_Run") =
        normalizeValue "CMIP6_Historical_Run" :=
  ⟨by decide, (normalizeValue_spec "https://Example.com/Path").1 (by decide),
    by decide, ((normalizeValue_spec "CMIP6:SomeTerm").2).1 (by decide),
    (((normalizeValue_spec "CMIP6_Historical_Run").2).2).1⟩

/-- The IRI a term definition denotes: a bare string is the IRI itself, an
object definition carries it under @id. -/
def termIriDef : Json → Option String
  | Json.str s => some s
  | Json.obj es =>
      match objGet es "@id" with
      | some (Json.str s) => some s
      | _ => none
  | _ => none

/-- The IRI a resolved context assigns to a term. -/
def termIri (c : List (String × Json)) (t : String) : Option String :=
  (objGet c t).bind termIriDef

/-- Modelled from the spec: the linked-field classification the
expand/compact engine of the specification uses — the definition is an
object whose @type is @id or @vocab (the engine itself is the external
jsonld library loaded from a CDN, absent from the sources; safeExpand and
safeCompact only wrap it). -/
def isLinkedSpec (c : List (String × Json)) (t : String) : Bool :=
  match objGet c t with
  | some (Json.obj es) =>
      match objGet es "@type" with
      | some (Json.str ty) => ty == "@id" || ty == "@vocab"
      | _ => false
  | _ => false

/-- The first-colon split of a prefixed name. -/
def splitFirstColon (s : String) : Option (String × String) :=
  let seg := s.data.takeWhile (fun c => c != ':')
  if seg.length = s.data.length then none
  else some (String.mk seg, String.mk (s.data.drop (seg.length + 1)))

/-- Modelled from the spec: IRI expansion of a linked value — absolute http
IRIs kept, prefixed names resolved through the context's string
definitions, plain names resolved against @base or @vocab. -/
def expandIri (c : List (String × Json)) (s : String) : String :=
  if strStartsWith s "http" then s
  else
    match splitFirstColon s with
    | some (p, suf) =>
        match objGet c p with
        | some (Json.str u) => u ++ suf
        | _ => s
    | none =>
        match objGet c "@base" with
        | some (Json.str b) => b ++ s
        | _ =>
            match objGet c "@vocab" with
            | some (Json.str v) => v ++ s
            | _ => s

/-- Modelled from the spec: IRI compaction — the first term of the context
whose string definition is a non-empty prefix of the IRI shortens it back
to a prefixed name; otherwise the IRI stays. -/
def compactIri : List (String × Json) → String → String
  | [], iri => iri
  | (t, Json.str u) :: rest, iri =>
      if u != "" && u.data.isPrefixOf iri.data
      then t ++ ":" ++ String.mk (iri.data.drop u.data.length)
      else compactIri rest iri
  | _ :: rest, iri => compactIri rest iri

/-- Modelled from the spec: key expansion — the term's @id mapping, falling
back to the @vocab prefix or a default namespace when undefined. -/
def expandKey (c : List (String × Json)) (k : String) : String :=
  match termIri c k with
  | some i => i
  | none =>
      match objGet c "@vocab" with
      | some (Json.str v) => v ++ k
      | _ => "http://example.org/" ++ k

/-- A reference wrapper object carrying only an identifier. -/
def wrapRef (i : String) : Json := Json.obj [("@id", Json.str i)]

/-- Modelled from the spec: expansion of one element of a linked array
value. -/
def expandItem (c : List (String × Json)) : Json → Json
  | Json.str s => wrapRef (expandIri c s)
  | other => other

/-- Modelled from the spec: expansion of a linked value — a bare string
becomes a reference wrapper, an array is expanded element-wise. -/
def expandVal (c : List (String × Json)) : Json → Json
  | Json.str s => wrapRef (expandIri c s)
  | Json.arr items => Json.arr (items.map (expandItem c))
  | other => other

/-- Modelled from the spec: expansion of a document — every key rewritten
to its IRI, every linked value wrapped, @context dropped from the output. -/
def expandDoc (c d : List (String × Json)) : List (String × Json) :=
  d.filterMap (fun p =>
    if p.1 == "@context" then none
    else some (expandKey c p.1,
      if isLinkedSpec c p.1 then expandVal c p.2 else p.2))

/-- The first term of the context whose definition denotes the given IRI. -/
def findTermFor : List (String × Json) → String → Option String
  | [], _ => none
  | (t, d) :: rest, iri =>
      match termIriDef d with
      | some i => if i = iri then some t else findTermFor rest iri
      | none => findTermFor rest iri

/-- Modelled from the spec: compaction of one element of a linked array
value — a single-@id wrapper unwraps to the compacted bare string. -/
def compactItem (c : List (String × Json)) : Json → Json
  | Json.obj [(k, Json.str s)] =>
      if k = "@id" then Json.str (compactIri c s)
      else Json.obj [(k, Json.str s)]
  | other => other

/-- Modelled from the spec: compaction of a linked value. -/
def compactVal (c : List (String × Json)) : Json → Json
  | Json.obj [(k, Json.str s)] =>
      if k = "@id" then Json.str (compactIri c s)
      else Json.obj [(k, Json.str s)]
  | Json.arr items => Json.arr (items.map (compactItem c))
  | other => other

/-- Modelled from the spec: compaction of an expanded document — every IRI
key rewritten back to its short term, linked values unwrapped to bare
strings; keys no term denotes are kept as-is. -/
def compactDoc (c e : List (String × Json)) : List (String × Json) :=
  e.map (fun p =>
    match findTermFor c p.1 with
    | some t => (t, if isLinkedSpec c t then compactVal c p.2 else p.2)
    | none => p)

/-- A linked string value whose IRI expansion compacts back to itself. -/
def iriRT (c : List (String × Json)) (s : String) : Bool :=
  compactIri c (expandIri c s) == s

/-- One element of a linked array value: a string that round-trips. -/
def strItemOk (c : List (String × Json)) : Json → Bool
  | Json.str s => iriRT c s
  | _ => false

/-- A linked value the engine handles: a round-tripping string or an array
of round-tripping strings. -/
def linkedValOk (c : List (String × Json)) : Json → Bool
  | Json.str s => iriRT c s
  | Json.arr items => items.all (strItemOk c)
  | _ => false

/-- A well-formed document entry for the round trip: not the @context key,
its key a term the context defines whose IRI maps back to exactly this term
(the first such), and, when linked, a value whose IRIs round-trip. -/
def wfEntry (c : List (String × Json)) (p : String × Json) : Bool :=
  (p.1 != "@context") &&
  (match termIri c p.1 with
   | some i => findTermFor c i == some p.1
   | none => false) &&
  (!(isLinkedSpec c p.1) || linkedValOk c p.2)

theorem compactItem_expandItem (c : List (String × Json)) (it : Json)
    (h : strItemOk c it = true) : compactItem c (expandItem c it) = it := by
  cases it with
  | str s =>
      have hrt : compactIri c (expandIri c s) = s := by
        have := h
        simp only [strItemOk, iriRT] at this
        exact eq_of_beq this
      simp [expandItem, wrapRef, compactItem, hrt]
  | null => cases h
  | bool b => cases h
  | num n => cases h
  | arr items => cases h
  | obj es => cases h

theorem compactVal_expandVal (c : List (String × Json)) (v : Json)
    (h : linkedValOk c v = true) : compactVal c (expandVal c v) = v := by
  cases v with
  | str s =>
      have hrt : compactIri c (expandIri c s) = s := by
        have := h
        simp only [linkedValOk, iriRT] at this
        exact eq_of_beq this
      simp [expandVal, wrapRef, compactVal, hrt]
  | arr items =>
      have hall : ∀ it ∈ items, strItemOk c it = true := by
        simpa [linkedValOk, List.all_eq_true] using h
      show compactVal c (Json.arr (items.map (expandItem c))) = Json.arr items
      show Json.arr ((items.map (expandItem c)).map (compactItem c)) = Json.arr items
      rw [List.map_map]
      congr 1
      have : ∀ it ∈ items, (compactItem c ∘ expandItem c) it = id it := by
        intro it hit
        exact compactItem_expandItem c it (hall it hit)
      rw [List.map_congr_left this, List.map_id]
  | null => cases h
  | bool b => cases h
  | num n => cases h
  | obj es => cases h

/-- C2: round trip of the expand/compact engine.  For every well-formed
document whose keys are terms of the resolvable context and whose linked
values round-trip through IRI expansion, compacting the expansion restores
the document exactly — the same key/value pairs, here even in the same
order. -/
theorem expand_compact_roundTrip (c d : List (String × Json))
    (h : ∀ p ∈ d, wfEntry c p = true) :
    compactDoc c (expandDoc c d) = d := by
  induction d with
  | nil => rfl
  | cons p rest ih =>
      obtain ⟨k, v⟩ := p
      have hp := h (k, v) (List.mem_cons_self _ _)
      have hrest := fun q hq => h q (List.mem_cons_of_mem _ hq)
      have hk : (k != "@context") = true := by
        have := hp
        simp only [wfEntry, Bool.and_eq_true] at this
        exact this.1.1
      have hterm : (match termIri c k with
          | some i => findTermFor c i == some k
          | none => false) = true := by
        have := hp
        simp only [wfEntry, Bool.and_eq_true] at this
        exact this.1.2
      have hlinked : (!(isLinkedSpec c k) || linkedValOk c v) = true := by
        have := hp
        simp only [wfEntry, Bool.and_eq_true] at this
        exact this.2
      cases hti : termIri c k with
      | none => rw [hti] at hterm; cases hterm
      | some i =>
          rw [hti] at hterm
          have hfind : findTermFor c i = some k := eq_of_beq (by simpa using hterm)
          have hek : expandKey c k = i := by simp [expandKey, hti]
          have hkne : ¬ k = "@context" := by simpa using hk
          by_cases hl : isLinkedSpec c k = true
          · have hlv : linkedValOk c v = true := by
              rw [hl] at hlinked
              simpa using hlinked
            have hexp : expandDoc c ((k, v) :: rest) =
                (i, expandVal c v) :: expandDoc c rest := by
              simp [expandDoc, hkne, hek, hl]
            have hcomp : compactDoc c ((i, expandVal c v) :: expandDoc c rest) =
                (k, compactVal c (expandVal c v)) ::
                  compactDoc c (expandDoc c rest) := by
              simp [compactDoc, hfind, hl]
            rw [hexp, hcomp, ih hrest, compactVal_expandVal c v hlv]
          · have hl' : isLinkedSpec c k = false := by
              cases hb : isLinkedSpec c k
              · rfl
              · exact absurd hb hl
            have hexp : expandDoc c ((k, v) :: rest) =
                (i, v) :: expandDoc c rest := by
              simp [expandDoc, hkne, hek, hl']
            have hcomp : compactDoc c ((i, v) :: expandDoc c rest) =
                (k, v) :: compactDoc c (expandDoc c rest) := by
              simp [compactDoc, hfind, hl']
            rw [hexp, hcomp, ih hrest]

/-- A concrete resolvable context: a literal term, a linked term and a
prefix definition. -/
def c2ctx : List (String × Json) :=
  [("name", Json.str "http://ex/name"),
    ("experiment", Json.obj [("@id", Json.str "http://ex/experiment"),
      ("@type", Json.str "@id")]),
    ("ex", Json.str "http://ex/")]

/-- A concrete document using only terms of c2ctx. -/
def c2doc : List (String × Json) :=
  [("name", Json.str "CMIP"), ("experiment", Json.str "ex:cmip")]

/-- Witness for C2 at the concrete context and document. -/
theorem expand_compact_roundTrip_witness :
    compactDoc c2ctx (expandDoc c2ctx c2doc) = c2doc :=
  expand_compact_roundTrip c2ctx c2doc (by decide)

end CMIPLD
